import Mathlib

set_option maxRecDepth 20000

/-
  Verification development for parse_ctrees.h (manodeep/parse_ctrees).

  Shallow embedding conventions:
  * Machine integers are modelled as Int/Nat; the int32 truncation performed by
    the (int32_t) cast of strtol is modelled explicitly with toInt32, and
    strtol/strtoll overflow clamping to the 64-bit long range with clampLong.
  * malloc/realloc success is abstracted by an allocation oracle
    (Nat -> Bool, indexed by the base-pointer index); realloc preserves the
    stored contents and updates the allocation size in bytes.
  * Destination buffers are modelled per base pointer as an association list
    from absolute byte address (N * stride + offset) to the typed value
    written there (newest write first).  The claims never exercise
    byte-aliased (type-punned overlapping) writes, so value-level stores are
    an exact model of the byte stores they stand for.
  * float/double conversion (strtof/strtod) is locale-independent and
    deterministic, and no claim inspects a float numerically, so an F32/F64
    write is modelled as the retained token string.
  * Files are byte lists; pread fd buf n off returns (data.drop off).take n.
    Bytes of a fixed-size C stack buffer beyond those written by the last
    read are uninitialized in C; the model pads with the NUL character.  All
    theorems below only exercise executions whose scans stay inside the bytes
    actually read, where the model agrees with the C code exactly.
-/

/-- Destination numeric types, from enum parse_numeric_types. -/
inductive NumType where
  | I32
  | I64
  | U32
  | U64
  | F32
  | F64
  deriving DecidableEq, Repr

/-- A typed value written to a destination.  Integer writes carry the
converted value; float writes carry the token (see header comment). -/
inductive NumVal where
  | vI32 (v : Int)
  | vI64 (v : Int)
  | vF32 (tok : String)
  | vF64 (tok : String)
  deriving DecidableEq, Repr

/-- Split a character list at every delimiter (a one-field split of the
empty list is [[]]), keeping empty fields: exactly the token sequence that
repeated strsep produces.  Structural (kernel-reducible) replacement for
String.split. -/
def splitChars (p : Char → Bool) : List Char → List (List Char)
  | [] => [[]]
  | c :: cs =>
    let r := splitChars p cs
    if p c then [] :: r
    else
      match r with
      | [] => [[c]]
      | t :: ts => (c :: t) :: ts

/-- The strsep token sequence of a string for a delimiter set. -/
def stringSplit (p : Char → Bool) (s : String) : List String :=
  (splitChars p s.data).map String.mk

/-- ASCII lowercase of a string (structural replacement for
String.toLower; Consistent-Trees names are ASCII). -/
def toLowerStr (s : String) : String := String.mk (s.data.map Char.toLower)

/-- C isspace for the default locale, as consumed by strtol/strtoll. -/
def isSpaceC (c : Char) : Bool :=
  c == ' ' || c == '\t' || c == '\n' || c == '\x0b' || c == '\x0c' || c == '\r'

/-- Accumulate a decimal digit run, stopping at the first non-digit
(strtol ignores the remainder of the token). -/
def digitsVal : List Char → Nat → Nat
  | c :: cs, acc => if c.isDigit then digitsVal cs (acc * 10 + (c.toNat - '0'.toNat)) else acc
  | [], acc => acc

/-- strtol base 10 before range clamping: skip isspace, optional sign,
then a decimal digit run (value 0 if no digits). -/
def strtolRaw (cs : List Char) : Int :=
  match cs.dropWhile isSpaceC with
  | '-' :: rest => - (digitsVal rest 0 : Int)
  | '+' :: rest => (digitsVal rest 0 : Int)
  | s1 => (digitsVal s1 0 : Int)

/-- strtol/strtoll clamp an out-of-range value to LONG_MIN/LONG_MAX
(64-bit long). -/
def clampLong (v : Int) : Int :=
  if v < -(2 ^ 63) then -(2 ^ 63) else if v > 2 ^ 63 - 1 then 2 ^ 63 - 1 else v

/-- strtol(token, NULL, 10) on a 64-bit long. -/
def strtolM (s : String) : Int := clampLong (strtolRaw s.data)

/-- Two's-complement truncation of an integer to int32_t. -/
def toInt32 (v : Int) : Int := (v + 2 ^ 31) % 2 ^ 32 - 2 ^ 31

/-- atoi: (int) strtol(s, NULL, 10), int being 32-bit. -/
def atoiM (cs : List Char) : Int := toInt32 (clampLong (strtolRaw cs))

/-- One destination buffer of struct base_ptr_info: its element stride in
bytes (base_element_size), the byte size of the current allocation behind
the base pointer, and the values written so far (newest first, keyed by
absolute byte address). -/
structure BufGroup where
  elemSize : Nat
  allocBytes : Int
  store : List (Int × NumVal)
  deriving DecidableEq, Repr

/-- struct base_ptr_info: base pointer count, the buffers, the shared row
counter N and the shared allocated capacity nallocated. -/
structure BaseInfo where
  num_base_ptrs : Int
  groups : List BufGroup
  N : Int
  nallocated : Int
  deriving DecidableEq, Repr

/-- One resolved entry of struct ctrees_column_to_ptr: file column number,
destination type, byte offset within an element, and base pointer index. -/
structure MapEntry where
  column_number : Int
  field_type : NumType
  dest_offset : Nat
  base_ptr_idx : Int
  deriving DecidableEq, Repr

/-- Result of parse_line_ctrees: the returned int status
(0 = EXIT_SUCCESS, 1 = EXIT_FAILURE) and the final base_ptr_info state. -/
structure ParseResult where
  status : Nat
  info : BaseInfo
  deriving DecidableEq, Repr

/-- Default group used to make out-of-range list access total (the C code
would dereference wild memory there; no theorem exercises that case). -/
def gDflt : BufGroup := ⟨0, 0, []⟩

/-- The realloc loop of reallocate_base_ptrs: walk the base pointers in
order; a successful realloc of group i replaces its allocation with
size*new_N bytes, preserving contents; the first failure stops the loop,
leaving the groups already processed reallocated. -/
def reallocGroups (oracle : Nat → Bool) (newN : Int) : Nat → List BufGroup → Bool × List BufGroup
  | _, [] => (true, [])
  | i, g :: gs =>
    if oracle i then
      let g2 : BufGroup := { g with allocBytes := (g.elemSize : Int) * newN }
      let r := reallocGroups oracle newN (i + 1) gs
      (r.1, g2 :: r.2)
    else
      (false, g :: gs)

/-- reallocate_base_ptrs: grow every base pointer to new_N elements;
nallocated is updated only after every group succeeded; N is never
touched. -/
def reallocate_base_ptrs (oracle : Nat → Bool) (info : BaseInfo) (newN : Int) : Nat × BaseInfo :=
  let r := reallocGroups oracle newN 0 info.groups
  if r.1 then (0, { info with groups := r.2, nallocated := newN })
  else (1, { info with groups := r.2 })

/-- The do-while of parse_line_ctrees: strsep until a non-empty token
appears; none models strsep returning NULL (string exhausted), which the
XASSERT turns into EXIT_FAILURE. -/
def popNE : List String → Option (String × List String)
  | [] => none
  | t :: ts => if t == "" then popNE ts else some (t, ts)

/-- The while(icol < wanted_col) loop body, run the given number of times:
each run replaces the current token by the next non-empty one. -/
def advanceTok : Nat → Option String → List String → Option String × List String
  | 0, tok, rest => (tok, rest)
  | n + 1, _, rest =>
    match popNE rest with
    | none => (none, [])
    | some (t, r) => advanceTok n (some t) r

/-- The switch(wanted_type) of parse_line_ctrees.  Only F32, F64, I32 and
I64 have cases in the source; U32 and U64 fall into the default branch
(none), which returns EXIT_FAILURE. -/
def writeVal (tok : String) : NumType → Option NumVal
  | .F32 => some (.vF32 tok)
  | .F64 => some (.vF64 tok)
  | .I32 => some (.vI32 (toInt32 (strtolM tok)))
  | .I64 => some (.vI64 (strtolM tok))
  | .U32 => none
  | .U64 => none

/-- The for loop over the requested columns in parse_line_ctrees, carrying
the cursor state (icol, current token, remaining raw tokens).  Note that
base_ptr_info->N is incremented inside this loop, once per entry, exactly
as in the source. -/
def parseLoop : List MapEntry → Int → Option String → List String → BaseInfo → ParseResult
  | [], _, _, _, bp => ⟨0, bp⟩
  | e :: es, icol, tok, rest, bp =>
    if e.base_ptr_idx < bp.num_base_ptrs then
      let g := bp.groups.getD e.base_ptr_idx.toNat gDflt
      if 4 ≤ g.elemSize then
        if e.dest_offset ≤ g.elemSize then
          let destAddr : Int := bp.N * (g.elemSize : Int) + (e.dest_offset : Int)
          let n := (e.column_number - icol).toNat
          let st := advanceTok n tok rest
          match st.1 with
          | none => ⟨1, bp⟩
          | some t =>
            if t == "" then ⟨1, bp⟩
            else
              match writeVal t e.field_type with
              | none => ⟨1, bp⟩
              | some v =>
                let g2 : BufGroup := { g with store := (destAddr, v) :: g.store }
                let bp2 : BaseInfo :=
                  { bp with groups := bp.groups.set e.base_ptr_idx.toNat g2, N := bp.N + 1 }
                parseLoop es (icol + (n : Int)) st.1 st.2 bp2
        else ⟨1, bp⟩
      else ⟨1, bp⟩
    else ⟨1, bp⟩

/-- parse_line_ctrees: grow first when nallocated == N (to 2*N), then walk
the column mapping with a forward cursor over the strsep(" ") tokens of the
line. -/
def parse_line_ctrees (oracle : Nat → Bool) (linebuf : String) (ci : List MapEntry)
    (bp : BaseInfo) : ParseResult :=
  let tokens := stringSplit (· == ' ') linebuf
  if bp.nallocated = bp.N then
    let r := reallocate_base_ptrs oracle bp (2 * bp.N)
    if r.1 ≠ 0 then ⟨r.1, r.2⟩
    else parseLoop ci (-1) none tokens r.2
  else parseLoop ci (-1) none tokens bp

/-- strcasecmp equality (ASCII case-insensitive; all Consistent-Trees
column names are ASCII). -/
def lcEq (a b : String) : Bool := toLowerStr a == toLowerStr b

/-- The inner for loop of match_column_name: first file column (searching
from index j) whose name matches case-insensitively, or -1. -/
def matchLoop (w : String) : Nat → List String → Int
  | _, [] => -1
  | j, nm :: rest => if lcEq w nm then (j : Int) else matchLoop w (j + 1) rest

/-- match_column_name for a single requested name. -/
def matchKey (names : List String) (w : String) : Int := matchLoop w 0 names

/-- match_column_name: per requested name, the matched file column or -1. -/
def match_column_name (wanted : List String) (names : List String) : List Int :=
  wanted.map (matchKey names)

/-- Processing of one non-empty header token at position col: enforce the
name-length XASSERT, cut the name at the first opening parenthesis, and if
a closing parenthesis follows, check that the digits between equal col
(the index-suffix consistency XASSERT).  none models EXIT_FAILURE. -/
def nameOfToken (tok : List Char) (col : Int) : Option (List Char) :=
  if 0 < tok.length ∧ tok.length < 64 then
    match tok.findIdx? (· == '(') with
    | none => some tok
    | some i =>
      match (tok.drop (i + 1)).findIdx? (· == ')') with
      | none => some (tok.take i)
      | some j =>
        if atoiM ((tok.drop (i + 1)).take j) = col then some (tok.take i) else none
  else none

/-- The second tokenization loop of parse_header_ctrees, numbering the
non-empty tokens consecutively. -/
def namesLoop : List String → Nat → Option (List String)
  | [], _ => some []
  | t :: ts, col =>
    match nameOfToken t.data (col : Int) with
    | none => none
    | some nm =>
      match namesLoop ts (col + 1) with
      | none => none
      | some rest => some (String.mk nm :: rest)

/-- The request-independent part of parse_header_ctrees: check the comment
marker, count columns by strsep on space/comma (empty tokens counted),
extract the names by strsep on space/comma/newline/marker (empty tokens
skipped), and check both counts agree.  The argument is the header line as
read by fgets (trailing newline included); the empty string models fgets
returning NULL. -/
def headerNamesModel (header : String) : Option (List String) :=
  if header.data.head? = some '#' then
    let totncols := (stringSplit (fun c => c == ' ' || c == ',') header).length
    let toks := (stringSplit (fun c => c == ' ' || c == ',' || c == '\n' || c == '#') header).filter
      (fun t => t != "")
    match namesLoop toks 0 with
    | none => none
    | some names => if names.length = totncols then some names else none
  else none

/-- One caller request: column name, destination type, base pointer index
(destination group selector) and byte offset, i.e. the i-th element of the
four caller-supplied arrays of parse_header_ctrees. -/
structure HRequest where
  name : String
  ftype : NumType
  baseIdx : Int
  destOff : Nat
  deriving DecidableEq, Repr

/-- A request paired with its matched file column (-1 when unmatched),
i.e. one index of the arrays handed to the sort. -/
structure KeyedReq where
  key : Int
  req : HRequest
  deriving DecidableEq, Repr

/-- Stable insertion keeping existing entries with key less than or equal
before the inserted one. -/
def sinsert (x : KeyedReq) : List KeyedReq → List KeyedReq
  | [] => [x]
  | y :: ys => if y.key < x.key then y :: sinsert x ys else x :: y :: ys

/-- Modelled from the spec: the repository performs this sort with
SGLIB_ARRAY_QUICK_SORT from sglib.h, which is not present under src/.
Spec: "Sort the resolved entries ascending by file column index (stable
with respect to ties), carrying each entry's numeric type, destination
selector, and byte offset along with it."  Insertion sort with sinsert is
ascending and stable. -/
def specStableSort : List KeyedReq → List KeyedReq
  | [] => []
  | x :: xs => sinsert x (specStableSort xs)

/-- Result of parse_header_ctrees: the filled ctrees_column_to_ptr
(entries, in order; ncols is their number) and the final contents of the
four caller-supplied request arrays, which the multi-array sort exchanger
permutes in place. -/
structure HeaderResult where
  entries : List MapEntry
  finalReqs : List HRequest
  deriving DecidableEq, Repr

/-- Assembly of one sorted, matched entry into ctrees_column_to_ptr. -/
def toMapEntry (r : KeyedReq) : MapEntry :=
  ⟨r.key, r.req.ftype, r.req.destOff, r.req.baseIdx⟩

/-- parse_header_ctrees: refuse more than PARSE_CTREES_MAX_NCOLS = 128
requests, parse the header names, match each request, sort all arrays
together by matched column, and keep the matched entries in sorted
order.  none models EXIT_FAILURE. -/
def parse_header_ctrees (requests : List HRequest) (header : String) : Option HeaderResult :=
  if requests.length > 128 then none
  else
    match headerNamesModel header with
    | none => none
    | some names =>
      let keyed := requests.map (fun rq => KeyedReq.mk (matchKey names rq.name) rq)
      let sorted := specStableSort keyed
      some { entries := (sorted.filter (fun r => r.key != -1)).map toMapEntry,
             finalReqs := sorted.map (·.req) }

/-- The matched entries in original request order (before the sort),
used to state stability. -/
def resolvedInRequestOrder (requests : List HRequest) (names : List String) : List MapEntry :=
  ((requests.map (fun rq => KeyedReq.mk (matchKey names rq.name) rq)).filter
    (fun r => r.key != -1)).map toMapEntry

/-- A byte of the 4 KiB stack read buffer.  Indices beyond the bytes of
the current chunk are uninitialized in C and are modelled as NUL (see the
header comment); every theorem below stays within the read bytes. -/
def byteAt (buf : List Char) (i : Nat) : Char := buf.getD i '\x00'

/-- The C string handed to parse_line_ctrees: linebuf receives exactly
curr_pos bytes by memmove and is read as a NUL-terminated string, so an
embedded NUL (left by an earlier in-buffer termination) cuts it short.
The terminator at the end is assumed (memmove copies no terminator; the
model takes the adjacent stack garbage to be NUL, the charitable case). -/
def cString (cs : List Char) : String := String.mk (cs.takeWhile (fun c => c != '\x00'))

/-- Outcome of the per-row scan loop of read_single_tree_ctrees. -/
inductive ScanOut where
  | newline (curr : Nat)
  | hash
  | endOfChunk
  deriving DecidableEq, Repr

/-- The scan loop: while (curr_pos < nbytes_read and the byte is not a
newline) check for the comment marker and advance.  curr counts relative
to the row start s; the bound nbytes is against curr alone, exactly as in
the source (which therefore can scan past the valid bytes; modelled by
NUL padding). -/
def scanRowAux (buf : List Char) (s : Nat) : Nat → Nat → ScanOut
  | _, 0 => .endOfChunk
  | curr, rem + 1 =>
    let c := byteAt buf (s + curr)
    if c == '\n' then .newline curr
    else if c == '#' then .hash
    else scanRowAux buf s (curr + 1) rem

def scanRow (buf : List Char) (s : Nat) (nbytes : Nat) : ScanOut :=
  scanRowAux buf s 0 nbytes

/-- Outcome of the keep_parsing loop over one chunk, accumulating the
lines handed to parse_line_ctrees: stopped at a comment marker (next tree),
stopped at an incomplete trailing row (curr_pos == nbytes_read), or an
error status propagated from parse_line_ctrees.  The Nat carries
bytes_processed. -/
inductive InnerOut where
  | marker (bytesProcessed : Nat) (bp : BaseInfo) (handed : List String)
  | incomplete (bytesProcessed : Nat) (bp : BaseInfo) (handed : List String)
  | err (status : Nat) (bp : BaseInfo) (handed : List String)
  deriving Repr

/-- One chunk's row loop.  Note the source defects it reproduces:
the NUL terminator is written at read_buffer[curr_pos] (absolute index,
not relative to the row start), and the memmove into linebuf copies
read_buffer[0..curr_pos), so rows after the first in a chunk hand the
wrong bytes.  Moreover the break in the comment-marker branch exits only
the inner scan loop: with curr_pos reset to 0 and nbytes_read nonzero
control falls through to the row-emission code, which writes
read_buffer[0] = NUL, advances start and bytes_processed by 1, memmoves
zero bytes into linebuf (leaving it uninitialized; under the model's NUL
convention it reads as the empty string) and makes one extra
parse_line_ctrees call, returning its status when it fails.  consumed
tracks both start - read_buffer and bytes_processed, which the source
keeps equal.  fuel bounds the loop (each parsed row consumes at least one
byte, so nbytes + 1 iterations always suffice; the fuel-out branch is
unreachable on such runs). -/
def innerLoopAux (oracle : Nat → Bool) (ci : List MapEntry) :
    Nat → List Char → Nat → Nat → BaseInfo → InnerOut
  | 0, _, _, _, bp => .err 255 bp []
  | fuel + 1, buf, nbytes, consumed, bp =>
    match scanRow buf consumed nbytes with
    | .hash =>
      if nbytes = 0 then .marker consumed bp []
      else
        let buf2 := buf.set 0 '\x00'
        let line := cString (buf2.take 0)
        let r := parse_line_ctrees oracle line ci bp
        if r.status ≠ 0 then .err r.status r.info [line]
        else .marker (consumed + 1) r.info [line]
    | .endOfChunk => .incomplete consumed bp []
    | .newline curr =>
      let buf2 := buf.set curr '\x00'
      let line := cString (buf2.take curr)
      let r := parse_line_ctrees oracle line ci bp
      if r.status ≠ 0 then .err r.status r.info [line]
      else
        match innerLoopAux oracle ci fuel buf2 nbytes (consumed + curr + 1) r.info with
        | .marker b bp2 h => .marker b bp2 (line :: h)
        | .incomplete b bp2 h => .incomplete b bp2 (line :: h)
        | .err st bp2 h => .err st bp2 (line :: h)

/-- Result of read_single_tree_ctrees: the returned int status, the final
value of the local offset variable (which the C function computes but
never returns: its return type is int and offset is passed by value), the
final buffer state, and the lines handed to parse_line_ctrees in order. -/
structure ReadResult where
  status : Nat
  finalOffset : Nat
  info : BaseInfo
  handed : List String
  deriving Repr

/-- The while(done == 0) chunk loop: pread a chunk of
4*PARSE_CTREES_MAXBUFSIZE - 1 = 4095 bytes at offset, stop at end of file
(zero-length read), parse the chunk's rows, and advance offset by
bytes_processed; a marker row ends the tree (done = 1).  The
bytes_processed <= nbytes_read XASSERT is kept.  fuel bounds the number of
chunk reads (the source loops forever on a file whose last row is not
newline-terminated; none models non-termination). -/
def chunkLoop (oracle : Nat → Bool) (ci : List MapEntry) (data : List Char) :
    Nat → Nat → BaseInfo → List String → Option ReadResult
  | 0, _, _, _ => none
  | fuel + 1, offset, bp, handed =>
    let chunk := (data.drop offset).take 4095
    let nbytes := chunk.length
    if nbytes = 0 then some ⟨0, offset, bp, handed⟩
    else
      match innerLoopAux oracle ci (nbytes + 1) chunk nbytes 0 bp with
      | .err st bp2 h => some ⟨st, offset, bp2, handed ++ h⟩
      | .marker b bp2 h =>
        if b ≤ nbytes then some ⟨0, offset + b, bp2, handed ++ h⟩
        else some ⟨1, offset, bp2, handed ++ h⟩
      | .incomplete b bp2 h =>
        if b ≤ nbytes then chunkLoop oracle ci data fuel (offset + b) bp2 (handed ++ h)
        else some ⟨1, offset, bp2, handed ++ h⟩

/-- The marker-line skip: pread 30 bytes, advance offset past the first
newline among them, or by all 30 if none is found (the source scans its
whole 30-byte window even when the read returned fewer bytes; the NUL
padding of the model contains no newline, matching any garbage that
contains none). -/
def skipLen (window : List Char) : Nat :=
  match window.findIdx? (· == '\n') with
  | some j => j + 1
  | none => 30

/-- read_single_tree_ctrees: check ncols against
PARSE_CTREES_MAX_NCOLS = 128, skip the tree's marker line, then run the
chunk loop.  A zero-length first read returns EXIT_FAILURE. -/
def read_single_tree_ctrees (fuel : Nat) (data : List Char) (offset : Nat)
    (ci : List MapEntry) (bp : BaseInfo) (oracle : Nat → Bool) : Option ReadResult :=
  if ci.length > 128 then some ⟨1, offset, bp, []⟩
  else
    let window := (data.drop offset).take 30
    if window.length = 0 then some ⟨1, offset, bp, []⟩
    else chunkLoop oracle ci data fuel (offset + skipLen window) bp []

/-- The space-delimited tokens of a row as the strsep cursor of
parse_line_ctrees produces them, with the empty fields it skips removed. -/
def spaceTokens (s : String) : List String :=
  (stringSplit (· == ' ') s).filter (fun t => t != "")

/-- Stated from the words of claim C10 ("whitespace-separated tokens"),
for comparison against the source model, which splits on the space
character only: tokens separated by space or tab. -/
def specWhitespaceTokens (s : String) : List String :=
  (stringSplit (fun c => c == ' ' || c == '\t') s).filter (fun t => t != "")

/-- Variant of advanceTok over the token list with empty fields already
removed: each step pops the head.  Used to factor the proof that the
cursor consumes exactly one non-empty token per column advance. -/
def advanceF : Nat → Option String → List String → Option String × List String
  | 0, tok, rest => (tok, rest)
  | n + 1, _, rest =>
    match rest with
    | [] => (none, [])
    | t :: r => advanceF n (some t) r

/-- parseLoop specialized to a pre-filtered (no empty fields) token list;
identical to parseLoop except that it advances with advanceF. -/
def parseLoopF : List MapEntry → Int → Option String → List String → BaseInfo → ParseResult
  | [], _, _, _, bp => ⟨0, bp⟩
  | e :: es, icol, tok, rest, bp =>
    if e.base_ptr_idx < bp.num_base_ptrs then
      let g := bp.groups.getD e.base_ptr_idx.toNat gDflt
      if 4 ≤ g.elemSize then
        if e.dest_offset ≤ g.elemSize then
          let destAddr : Int := bp.N * (g.elemSize : Int) + (e.dest_offset : Int)
          let n := (e.column_number - icol).toNat
          let st := advanceF n tok rest
          match st.1 with
          | none => ⟨1, bp⟩
          | some t =>
            if t == "" then ⟨1, bp⟩
            else
              match writeVal t e.field_type with
              | none => ⟨1, bp⟩
              | some v =>
                let g2 : BufGroup := { g with store := (destAddr, v) :: g.store }
                let bp2 : BaseInfo :=
                  { bp with groups := bp.groups.set e.base_ptr_idx.toNat g2, N := bp.N + 1 }
                parseLoopF es (icol + (n : Int)) st.1 st.2 bp2
        else ⟨1, bp⟩
      else ⟨1, bp⟩
    else ⟨1, bp⟩

/-- The bytes of a tree block's data rows as laid out in the file: each
row followed by its terminating newline. -/
def rowsBytes (rows : List (List Char)) : List Char :=
  (rows.map (fun r => r ++ ['\n'])).flatten

/-- Claim C1 (refuted by the code): parse_line_ctrees is claimed to
increment the shared row counter exactly once per successfully parsed row,
after all mapped columns are written.  In the source the increment
base_ptr_info->N++ sits inside the for loop over the column mapping:
parsing the single row "1 2" with a two-entry mapping leaves N = 2, and
the first increment happens before the second column is written, so the
second write lands at byte 24 = 1*stride + 8 instead of 8. -/
theorem claim_C1_eval :
    parse_line_ctrees (fun _ => true) "1 2"
      [⟨0, .I64, 0, 0⟩, ⟨1, .I64, 8, 0⟩] ⟨1, [⟨16, 64, []⟩], 0, 4⟩ =
    ⟨0, ⟨1, [⟨16, 64, [(24, .vI64 2), (0, .vI64 1)]⟩], 2, 4⟩⟩ := by
  decide

/-- Claim C3 (refuted by the code): all six declared numeric types are
claimed to be converted and written, with the unknown-type default branch
unreachable.  U32 and U64 have no case in the switch of parse_line_ctrees,
so a mapping entry with type U32 falls into the default branch and the
call returns EXIT_FAILURE with nothing written. -/
theorem claim_C3_eval :
    parse_line_ctrees (fun _ => true) "5" [⟨0, .U32, 0, 0⟩] ⟨1, [⟨4, 16, []⟩], 0, 4⟩ =
      ⟨1, ⟨1, [⟨4, 16, []⟩], 0, 4⟩⟩ := by
  decide

/-- Claim C2 (refuted by the code): each complete row before the next
marker is claimed to be handed to parse_line_ctrees as exactly its own
bytes.  The source writes the NUL terminator at read_buffer[curr_pos] and
memmoves read_buffer[0..curr_pos) — indices from the chunk start, not from
the row start — so on the file "#t\n1 2\n3 4\n#u\n" the second call
receives "1 2" again instead of "3 4".  (The run then ends in
EXIT_FAILURE: on reaching the marker the code falls through to one more
parse_line_ctrees call on the uninitialized linebuf — the third handed
line, empty under the model's NUL convention — which fails for this
one-column mapping.) -/
theorem claim_C2_eval :
    (read_single_tree_ctrees 4 "#t\n1 2\n3 4\n#u\n".data 0 [⟨0, .I64, 0, 0⟩]
        ⟨1, [⟨8, 64, []⟩], 0, 8⟩ (fun _ => true)).map
      (fun r => (r.status, r.handed)) = some (1, ["1 2", "1 2", ""]) ∧
    ("1 2" : String) ≠ "3 4" := by
  constructor
  · decide
  · decide

/-- Claim C4 counterexample: growth is claimed to produce a non-zero
capacity from a zero state.  With N = nallocated = 0 the trigger fires and
reallocates to new_N = 2*0 = 0 elements: even with every allocation
succeeding, the recorded capacity after the call is still 0 (and the
group's allocation was resized to 0 bytes). -/
theorem claim_C4_counterexample :
    (parse_line_ctrees (fun _ => true) "7" [⟨0, .I64, 0, 0⟩] ⟨1, [⟨8, 8, []⟩], 0, 0⟩).info.nallocated
      = 0 ∧
    (parse_line_ctrees (fun _ => true) "7" [⟨0, .I64, 0, 0⟩]
        ⟨1, [⟨8, 8, []⟩], 0, 0⟩).info.groups.map (fun g => g.allocBytes) = [0] := by
  constructor
  · decide
  · decide

/-- Claim C5 counterexample: a growth failure is claimed to leave no
group's storage mutated.  With two groups and the allocation oracle
succeeding for group 0 and failing for group 1, reallocate_base_ptrs
returns EXIT_FAILURE, yet group 0's allocation has already been resized
from 8 to 16 bytes (nallocated and N are indeed unchanged). -/
theorem claim_C5_counterexample :
    (reallocate_base_ptrs (· == 0) ⟨2, [⟨8, 8, []⟩, ⟨4, 4, []⟩], 1, 1⟩ 2).1 = 1 ∧
    ((reallocate_base_ptrs (· == 0) ⟨2, [⟨8, 8, []⟩, ⟨4, 4, []⟩], 1, 1⟩ 2).2.groups.getD 0 gDflt).allocBytes = 16 ∧
    (((⟨2, [⟨8, 8, []⟩, ⟨4, 4, []⟩], 1, 1⟩ : BaseInfo).groups.getD 0 gDflt).allocBytes = 8) := by
  refine ⟨by decide, by decide, by decide⟩

/-- Claim C7 counterexample: read_single_tree_ctrees is claimed to parse
only the first block's rows, stop at the marker row without handing it
(or any later row) to the line parser, and report the marker line's
starting byte offset as nextOffset.  On "#t\n1 2\n#u\n" with a
one-column mapping the first block has one row and the marker starts at
offset 7, but the code detects the marker and then falls through to an
extra parse_line_ctrees call on the uninitialized linebuf (the second
handed line, empty under the model's NUL convention); that call fails and
the function returns EXIT_FAILURE = 1 — its only returned value — with
the local offset variable still at 3, the chunk start.  So a second line
beyond the block's single row is handed to the parser, and no marker
offset is reported.  The same happens on the two-row input. -/
theorem claim_C7_counterexample :
    ((read_single_tree_ctrees 4 "#t\n1 2\n#u\n".data 0 [⟨0, .I64, 0, 0⟩]
        ⟨1, [⟨8, 64, []⟩], 0, 8⟩ (fun _ => true)).map
      (fun r => (r.status, r.finalOffset, r.handed)) = some (1, 3, ["1 2", ""])) ∧
    ((read_single_tree_ctrees 4 "#t\n1 2\n3 4\n#u\n".data 0 [⟨0, .I64, 0, 0⟩]
        ⟨1, [⟨8, 64, []⟩], 0, 8⟩ (fun _ => true)).map
      (fun r => (r.status, r.finalOffset)) = some (1, 3)) := by
  constructor
  · decide
  · decide

/-- Claim C9 counterexample: the caller-supplied request arrays are
claimed to be read-only across parse_header_ctrees.  The multi-array sort
exchanger permutes them in place: requesting ("b", I32) then ("a", F32)
against the header "#a b\n" leaves the caller's field type array holding
[F32, I32] where it held [I32, F32]. -/
theorem claim_C9_counterexample :
    (parse_header_ctrees [⟨"b", .I32, 0, 0⟩, ⟨"a", .F32, 1, 4⟩] "#a b\n").map
      (fun res => res.finalReqs.map (fun rq => rq.ftype)) = some [NumType.F32, NumType.I32] ∧
    [NumType.F32, NumType.I32] ≠ [NumType.I32, NumType.F32] := by
  constructor
  · decide
  · decide

/-- Claim C10 counterexample: the parse outcome is claimed to depend only
on the first k+1 whitespace-separated tokens of the row.  The tokenizer of
parse_line_ctrees splits on the space character only, not on tabs: the
rows "9\t8 7" and "9 8 7" have identical whitespace-separated token lists
(so in particular identical first two tokens, k = 1 here), yet with a
mapping whose single entry reads file column 1 the first row stores 7 and
the second stores 8. -/
theorem claim_C10_counterexample :
    (specWhitespaceTokens "9\t8 7").take 2 = (specWhitespaceTokens "9 8 7").take 2 ∧
    parse_line_ctrees (fun _ => true) "9\t8 7" [⟨1, .I64, 0, 0⟩] ⟨1, [⟨8, 64, []⟩], 0, 8⟩ ≠
      parse_line_ctrees (fun _ => true) "9 8 7" [⟨1, .I64, 0, 0⟩] ⟨1, [⟨8, 64, []⟩], 0, 8⟩ := by
  constructor
  · decide
  · decide

/-- The effect of one successful realloc on a group: allocation resized to
size * new_N bytes, contents kept. -/
def resizeTo (newN : Int) (g : BufGroup) : BufGroup :=
  { g with allocBytes := (g.elemSize : Int) * newN }

/-- When every allocation succeeds, the realloc loop resizes every
group. -/
theorem reallocGroups_all_true (newN : Int) :
    ∀ (gs : List BufGroup) (i : Nat),
      reallocGroups (fun _ => true) newN i gs = (true, gs.map (resizeTo newN)) := by
  intro gs
  induction gs with
  | nil => intro i; simp [reallocGroups]
  | cons g gs ih => intro i; simp [reallocGroups, ih, resizeTo]

/-- When the first allocation failure is at group j, the realloc loop
stops there with the groups before j already resized and everything from
j on untouched. -/
theorem reallocGroups_first_fail (oracle : Nat → Bool) (newN : Int) :
    ∀ (gs : List BufGroup) (i j : Nat),
      (∀ t, t < j → oracle (i + t) = true) → oracle (i + j) = false → j < gs.length →
      reallocGroups oracle newN i gs = (false, (gs.take j).map (resizeTo newN) ++ gs.drop j) := by
  intro gs
  induction gs with
  | nil => intro i j _ _ h3; simp at h3
  | cons g gs ih =>
    intro i j h1 h2 h3
    cases j with
    | zero =>
      have h2x : oracle i = false := by simpa using h2
      simp [reallocGroups, h2x]
    | succ j =>
      have h0 : oracle i = true := by simpa using h1 0 (Nat.succ_pos j)
      have h1x : ∀ t, t < j → oracle (i + 1 + t) = true := by
        intro t ht
        have := h1 (t + 1) (by omega)
        have hx : i + (t + 1) = i + 1 + t := by omega
        rwa [hx] at this
      have h2x : oracle (i + 1 + j) = false := by
        have hx : i + (j + 1) = i + 1 + j := by omega
        rwa [hx] at h2
      have ihx := ih (i + 1) j h1x h2x (by simpa using h3)
      simp [reallocGroups, h0, ihx, resizeTo]

/-- Claim C5, amended: if growing any one group's backing storage fails,
reallocate_base_ptrs aborts with EXIT_FAILURE and leaves the committed row
count and the recorded capacity unchanged, but the growth is not atomic
across groups: the groups before the first failing one have already been
reallocated (resized in place); the failing group and those after it are
untouched. -/
theorem claim_C5_amended (oracle : Nat → Bool) (bp : BaseInfo) (newN : Int) (j : Nat)
    (h1 : ∀ t, t < j → oracle t = true) (h2 : oracle j = false) (h3 : j < bp.groups.length) :
    (reallocate_base_ptrs oracle bp newN).1 = 1 ∧
    (reallocate_base_ptrs oracle bp newN).2.N = bp.N ∧
    (reallocate_base_ptrs oracle bp newN).2.nallocated = bp.nallocated ∧
    (reallocate_base_ptrs oracle bp newN).2.groups =
      (bp.groups.take j).map (resizeTo newN) ++ bp.groups.drop j := by
  have h := reallocGroups_first_fail oracle newN bp.groups 0 j (by simpa using h1)
    (by simpa using h2) h3
  simp [reallocate_base_ptrs, h]

/-- Witness for the amended claim C5 at a concrete input: two groups, the
allocation for group 0 succeeds and the one for group 1 fails. -/
theorem claim_C5_witness :
    (reallocate_base_ptrs (· == 0) ⟨2, [⟨8, 8, []⟩, ⟨4, 4, []⟩], 1, 1⟩ 2).1 = 1 ∧
    (reallocate_base_ptrs (· == 0) ⟨2, [⟨8, 8, []⟩, ⟨4, 4, []⟩], 1, 1⟩ 2).2.N = 1 ∧
    (reallocate_base_ptrs (· == 0) ⟨2, [⟨8, 8, []⟩, ⟨4, 4, []⟩], 1, 1⟩ 2).2.nallocated = 1 ∧
    (reallocate_base_ptrs (· == 0) ⟨2, [⟨8, 8, []⟩, ⟨4, 4, []⟩], 1, 1⟩ 2).2.groups =
      [⟨8, 16, []⟩, ⟨4, 4, []⟩] :=
  claim_C5_amended (· == 0) ⟨2, [⟨8, 8, []⟩, ⟨4, 4, []⟩], 1, 1⟩ 2 1
    (by decide) (by decide) (by decide)

/-- Setting an index to a group with the same elemSize and allocBytes does
not change the projection of the group list to those fields. -/
theorem map_set_same {α : Type} (f : BufGroup → α) (l : List BufGroup) (i : Nat) (g2 : BufGroup)
    (h : f g2 = f (l.getD i gDflt)) : (l.set i g2).map f = l.map f := by
  induction l generalizing i with
  | nil => simp
  | cons g gs ih =>
    cases i with
    | zero => simp_all [List.getD]
    | succ i =>
      simp only [List.set, List.map]
      rw [ih i (by simpa [List.getD] using h)]

/-- getD after set at a different index. -/
theorem getD_set_ne (l : List BufGroup) (i j : Nat) (g2 : BufGroup) (h : i ≠ j) :
    (l.set i g2).getD j gDflt = l.getD j gDflt := by
  simp [List.getD_eq_getElem?_getD, List.getElem?_set_ne h]

/-- getD after set at the set index (in range). -/
theorem getD_set_self (l : List BufGroup) (i : Nat) (g2 : BufGroup) (h : i < l.length) :
    (l.set i g2).getD i gDflt = g2 := by
  simp [List.getD_eq_getElem?_getD, List.getElem?_set_self h]

/-- The column loop of parse_line_ctrees only appends to the stores and
advances N: nallocated, num_base_ptrs, and every group's elemSize and
allocBytes are untouched, and each group's prior store is a suffix of its
final store. -/
theorem parseLoop_frame (es : List MapEntry) :
    ∀ (icol : Int) (tok : Option String) (rest : List String) (bp : BaseInfo),
      (parseLoop es icol tok rest bp).info.nallocated = bp.nallocated ∧
      (parseLoop es icol tok rest bp).info.num_base_ptrs = bp.num_base_ptrs ∧
      (parseLoop es icol tok rest bp).info.groups.map (fun g => (g.elemSize, g.allocBytes)) =
        bp.groups.map (fun g => (g.elemSize, g.allocBytes)) ∧
      ∀ j, ((bp.groups.getD j gDflt).store).IsSuffix
        (((parseLoop es icol tok rest bp).info.groups.getD j gDflt).store) := by
  induction es with
  | nil =>
    intro icol tok rest bp
    simp [parseLoop]
  | cons e es ih =>
    intro icol tok rest bp
    rw [parseLoop]
    dsimp only
    split
    case isFalse => simp
    case isTrue hidx =>
    split
    case isFalse => simp
    case isTrue hstr =>
    split
    case isFalse => simp
    case isTrue hoff =>
    split
    case h_1 => simp
    case h_2 t hst =>
    split
    case isTrue => simp
    case isFalse hne =>
    split
    case h_1 => simp
    case h_2 v hw =>
      rw [hst]
      set idx := e.base_ptr_idx.toNat with hidxdef
      set g := bp.groups.getD idx gDflt with hgdef
      set g2 : BufGroup := { g with
        store := (bp.N * (g.elemSize : Int) + (e.dest_offset : Int), v) :: g.store }
        with hg2def
      set bp2 : BaseInfo :=
        { bp with groups := bp.groups.set idx g2, N := bp.N + 1 } with hbp2def
      have hrec := ih (icol + ((e.column_number - icol).toNat : Int))
        (some t) (advanceTok (e.column_number - icol).toNat tok rest).2 bp2
      refine ⟨?_, ?_, ?_, ?_⟩
      · rw [hrec.1]
      · rw [hrec.2.1]
      · rw [hrec.2.2.1]
        show (bp.groups.set idx g2).map _ = _
        exact map_set_same _ bp.groups idx g2 rfl
      · intro j
        refine List.IsSuffix.trans ?_ (hrec.2.2.2 j)
        show (bp.groups.getD j gDflt).store.IsSuffix
          ((bp.groups.set idx g2).getD j gDflt).store
        by_cases hj : idx = j
        · subst hj
          by_cases hlen : idx < bp.groups.length
          · rw [getD_set_self _ _ _ hlen]
            exact List.suffix_cons _ _
          · rw [List.set_eq_of_length_le (by omega)]
        · rw [getD_set_ne _ _ _ _ hj]

/-- Resizing every group does not change any stored content. -/
theorem getD_map_resize_store (newN : Int) (l : List BufGroup) :
    ∀ j : Nat, (((l.map (resizeTo newN)).getD j gDflt).store) = ((l.getD j gDflt).store) := by
  induction l with
  | nil => intro j; simp
  | cons g gs ih =>
    intro j
    cases j with
    | zero => simp [List.getD, resizeTo]
    | succ j => simpa [List.getD] using ih j

/-- Claim C4, amended: whenever the shared row counter equals the shared
capacity at the start of parse_line_ctrees and every allocation succeeds,
every group's backing storage is resized to 2*N elements (twice the
current capacity, since nallocated = N at the trigger) with all previously
written contents preserved — but a growth from the zero state produces
capacity 2*0 = 0, not a non-zero capacity.  Concretely, starting from
capacity 1 with a single-column mapping, three rows produce the capacity
progression 1, then 2, then 4, final row count 3, with the values written
to rows 0 and 1 intact after each growth. -/
theorem claim_C4_amended :
    (∀ (s : String) (ci : List MapEntry) (bp : BaseInfo), bp.nallocated = bp.N →
      (parse_line_ctrees (fun _ => true) s ci bp).info.nallocated = 2 * bp.N ∧
      (parse_line_ctrees (fun _ => true) s ci bp).info.groups.map
          (fun g => (g.elemSize, g.allocBytes)) =
        bp.groups.map (fun g => (g.elemSize, (g.elemSize : Int) * (2 * bp.N))) ∧
      ∀ j, ((bp.groups.getD j gDflt).store).IsSuffix
        (((parse_line_ctrees (fun _ => true) s ci bp).info.groups.getD j gDflt).store)) ∧
    (parse_line_ctrees (fun _ => true) "1" [⟨0, .I64, 0, 0⟩] ⟨1, [⟨8, 8, []⟩], 0, 1⟩ =
        ⟨0, ⟨1, [⟨8, 8, [(0, .vI64 1)]⟩], 1, 1⟩⟩ ∧
      parse_line_ctrees (fun _ => true) "2" [⟨0, .I64, 0, 0⟩] ⟨1, [⟨8, 8, [(0, .vI64 1)]⟩], 1, 1⟩ =
        ⟨0, ⟨1, [⟨8, 16, [(8, .vI64 2), (0, .vI64 1)]⟩], 2, 2⟩⟩ ∧
      parse_line_ctrees (fun _ => true) "3" [⟨0, .I64, 0, 0⟩]
          ⟨1, [⟨8, 16, [(8, .vI64 2), (0, .vI64 1)]⟩], 2, 2⟩ =
        ⟨0, ⟨1, [⟨8, 32, [(16, .vI64 3), (8, .vI64 2), (0, .vI64 1)]⟩], 3, 4⟩⟩) := by
  constructor
  · intro s ci bp h
    have hra : reallocate_base_ptrs (fun _ => true) bp (2 * bp.N) =
        (0, { bp with groups := bp.groups.map (resizeTo (2 * bp.N)), nallocated := 2 * bp.N }) := by
      unfold reallocate_base_ptrs
      rw [reallocGroups_all_true]
      dsimp only
      rw [if_pos rfl]
    unfold parse_line_ctrees
    rw [if_pos h, hra]
    dsimp only
    rw [if_neg (by norm_num)]
    set bp2 : BaseInfo :=
      { bp with groups := bp.groups.map (resizeTo (2 * bp.N)), nallocated := 2 * bp.N } with hbp2
    have hfr := parseLoop_frame ci (-1) none (stringSplit (· == ' ') s) bp2
    refine ⟨?_, ?_, ?_⟩
    · rw [hfr.1]
    · rw [hfr.2.2.1]
      show (bp.groups.map (resizeTo (2 * bp.N))).map _ = _
      simp [List.map_map, resizeTo, Function.comp]
    · intro j
      refine List.IsSuffix.trans ?_ (hfr.2.2.2 j)
      show (bp.groups.getD j gDflt).store.IsSuffix
        ((bp.groups.map (resizeTo (2 * bp.N))).getD j gDflt).store
      rw [getD_map_resize_store]
  · refine ⟨by decide, by decide, by decide⟩

/-- Witness for the amended claim C4 at a concrete input with the growth
trigger satisfied (N = nallocated = 3): the capacity doubles to 6 and the
group is resized accordingly. -/
theorem claim_C4_witness :
    (parse_line_ctrees (fun _ => true) "5" [⟨0, .I64, 0, 0⟩]
        ⟨1, [⟨8, 24, [(0, .vI64 9)]⟩], 3, 3⟩).info.nallocated = 2 * (3 : Int) ∧
    (parse_line_ctrees (fun _ => true) "5" [⟨0, .I64, 0, 0⟩]
        ⟨1, [⟨8, 24, [(0, .vI64 9)]⟩], 3, 3⟩).info.groups.map
      (fun g => (g.elemSize, g.allocBytes)) =
      [(⟨8, 24, [(0, .vI64 9)]⟩ : BufGroup)].map
        (fun g => (g.elemSize, (g.elemSize : Int) * (2 * (3 : Int)))) := by
  have h := claim_C4_amended.1 "5" [⟨0, .I64, 0, 0⟩] ⟨1, [⟨8, 24, [(0, .vI64 9)]⟩], 3, 3⟩ rfl
  exact ⟨h.1, h.2.1⟩

/-- Stable insertion is a permutation with the inserted element on top. -/
theorem sinsert_perm (x : KeyedReq) (l : List KeyedReq) : (sinsert x l).Perm (x :: l) := by
  induction l with
  | nil => simp [sinsert]
  | cons y ys ih =>
    rw [sinsert]
    split
    · exact (ih.cons y).trans (List.Perm.swap x y ys)
    · exact List.Perm.refl _

/-- The modelled stable sort is a permutation. -/
theorem specStableSort_perm (l : List KeyedReq) : (specStableSort l).Perm l := by
  induction l with
  | nil => simp [specStableSort]
  | cons x xs ih => exact (sinsert_perm x (specStableSort xs)).trans (ih.cons x)

/-- Stable insertion preserves sortedness by key. -/
theorem sinsert_pairwise (x : KeyedReq) (l : List KeyedReq)
    (h : l.Pairwise (fun a b => a.key ≤ b.key)) :
    (sinsert x l).Pairwise (fun a b => a.key ≤ b.key) := by
  induction l with
  | nil => simp [sinsert]
  | cons y ys ih =>
    rw [List.pairwise_cons] at h
    rw [sinsert]
    split
    case isTrue hlt =>
      refine List.Pairwise.cons ?_ (ih h.2)
      intro z hz
      rcases List.mem_cons.mp ((sinsert_perm x ys).mem_iff.mp hz) with rfl | hzys
      · exact le_of_lt hlt
      · exact h.1 z hzys
    case isFalse hge =>
      refine List.Pairwise.cons ?_ (List.Pairwise.cons h.1 h.2)
      intro z hz
      rcases List.mem_cons.mp hz with rfl | hzys
      · omega
      · have := h.1 z hzys
        omega

/-- The modelled stable sort sorts ascending by key. -/
theorem specStableSort_sorted (l : List KeyedReq) :
    (specStableSort l).Pairwise (fun a b => a.key ≤ b.key) := by
  induction l with
  | nil => simp [specStableSort]
  | cons x xs ih => exact sinsert_pairwise x _ ih

/-- Filtering one key class through a stable insertion: the inserted
element lands in front of the class when it belongs to it (everything kept
before it has a strictly smaller key). -/
theorem filter_sinsert (x : KeyedReq) (c : Int) :
    ∀ l : List KeyedReq,
      (sinsert x l).filter (fun r => r.key == c) =
        if x.key == c then x :: l.filter (fun r => r.key == c)
        else l.filter (fun r => r.key == c) := by
  intro l
  induction l with
  | nil =>
    rw [sinsert]
    by_cases hx : x.key == c <;> simp [hx, List.filter_cons]
  | cons y ys ih =>
    rw [sinsert]
    split
    case isTrue hlt =>
      rw [List.filter_cons]
      by_cases hyc : (y.key == c) = true
      · have hxc : ¬ ((x.key == c) = true) := by
          intro hxc
          have h1 : y.key = c := by simpa using hyc
          have h2 : x.key = c := by simpa using hxc
          omega
        simp only [hyc, if_true, ih, hxc, if_false, List.filter_cons]
        simp [hyc]
      · simp only [hyc, if_false, ih, List.filter_cons]
        by_cases hxc : (x.key == c) = true <;> simp [hxc, hyc]
    case isFalse hge =>
      rw [List.filter_cons]

/-- Stability of the modelled sort: every key class of the output is the
key class of the input, in input order. -/
theorem filter_specStableSort (c : Int) (l : List KeyedReq) :
    (specStableSort l).filter (fun r => r.key == c) = l.filter (fun r => r.key == c) := by
  induction l with
  | nil => rfl
  | cons x xs ih =>
    rw [specStableSort, filter_sinsert, List.filter_cons]
    by_cases hxc : (x.key == c) = true <;> simp [hxc, ih]

/-- Claim C9, amended: parse_header_ctrees does not treat the
caller-supplied request arrays as read-only — the sort exchanger applies
one shared permutation to all of them — but it preserves their contents as
a multiset: the final request array (names, types, selectors and offsets
permuted together) is a permutation of the original. -/
theorem claim_C9_amended (requests : List HRequest) (header : String) (res : HeaderResult)
    (h : parse_header_ctrees requests header = some res) :
    res.finalReqs.Perm requests := by
  unfold parse_header_ctrees at h
  split at h
  · exact absurd h (by simp)
  case isFalse hcap =>
    cases hm : headerNamesModel header with
    | none => rw [hm] at h; exact absurd h (by simp)
    | some names =>
      rw [hm] at h
      dsimp only at h
      rw [Option.some.injEq] at h
      subst h
      dsimp only
      have hp := (specStableSort_perm
        (requests.map (fun rq => KeyedReq.mk (matchKey names rq.name) rq))).map
        (fun r => r.req)
      have h2 : (requests.map (fun rq => KeyedReq.mk (matchKey names rq.name) rq)).map
          (fun r => r.req) = requests := by
        rw [List.map_map]
        exact List.map_id requests
      rwa [h2] at hp

/-- Witness for the amended claim C9 at the counterexample input: the
permuted array is a permutation of the original request array. -/
theorem claim_C9_witness :
    (([⟨"a", .F32, 1, 4⟩, ⟨"b", .I32, 0, 0⟩] : List HRequest)).Perm
      [⟨"b", .I32, 0, 0⟩, ⟨"a", .F32, 1, 4⟩] :=
  claim_C9_amended [⟨"b", .I32, 0, 0⟩, ⟨"a", .F32, 1, 4⟩] "#a b\n"
    ⟨[⟨0, .F32, 4, 1⟩, ⟨1, .I32, 0, 0⟩],
     [⟨"a", .F32, 1, 4⟩, ⟨"b", .I32, 0, 0⟩]⟩ (by decide)

/-- Filtering the assembled entries by column number is filtering the
keyed records by key (toMapEntry carries the key into column_number). -/
theorem filter_class_of_entries (l : List KeyedReq) (c : Int) :
    ((l.filter (fun r => r.key != -1)).map toMapEntry).filter (fun e => e.column_number == c) =
      ((l.filter (fun r => r.key != -1)).filter (fun r => r.key == c)).map toMapEntry := by
  rw [List.filter_map]
  rfl

/-- Collapsing the unmatched-filter against a key class: the class of a
real column c is untouched (its members have key c, not -1); the class of
-1 is empty. -/
theorem filter_class_collapse (l : List KeyedReq) (c : Int) :
    (l.filter (fun r => r.key != -1)).filter (fun r => r.key == c) =
      if c = -1 then [] else l.filter (fun r => r.key == c) := by
  rw [List.filter_filter]
  split
  case isTrue hc =>
    subst hc
    have : ∀ r : KeyedReq, ((r.key == -1) && (r.key != -1)) = false := by
      intro r
      by_cases h : r.key = -1 <;> simp [h]
    rw [List.filter_congr (fun r _ => this r)]
    simp
  case isFalse hc =>
    refine List.filter_congr ?_
    intro r _
    by_cases h : r.key = c
    · simp [h, hc]
    · simp [h]

/-- Claim C6: for every successful header resolution, the resulting
column mapping is sorted ascending by file column index, and it is stable
with respect to ties: for each file column c, the entries with column c
appear exactly as they do in original request order, each carrying its own
type, destination selector and byte offset.  The sort itself is modelled
from the spec, since sglib.h is not part of src/ (see specStableSort). -/
theorem claim_C6 (requests : List HRequest) (header : String) (names : List String)
    (res : HeaderResult)
    (h : parse_header_ctrees requests header = some res)
    (hn : headerNamesModel header = some names) :
    res.entries.Pairwise (fun a b => a.column_number ≤ b.column_number) ∧
    ∀ c : Int, res.entries.filter (fun e => e.column_number == c) =
      (resolvedInRequestOrder requests names).filter (fun e => e.column_number == c) := by
  unfold parse_header_ctrees at h
  split at h
  · exact absurd h (by simp)
  case isFalse hcap =>
    rw [hn] at h
    dsimp only at h
    rw [Option.some.injEq] at h
    subst h
    constructor
    · dsimp only
      rw [List.pairwise_map]
      exact (specStableSort_sorted
        (requests.map (fun rq => KeyedReq.mk (matchKey names rq.name) rq))).filter _
    · intro c
      dsimp only
      rw [resolvedInRequestOrder, filter_class_of_entries, filter_class_of_entries,
        filter_class_collapse, filter_class_collapse]
      by_cases hc : c = -1
      · simp [hc]
      · simp only [hc, if_false]
        rw [filter_specStableSort]

/-- Witness for claim C6 at a concrete input with a tie: requests b, a, A
against header "#a b\n" resolve to columns 1, 0, 0; the mapping is sorted
0, 0, 1 and the two column-0 entries keep request order (a before A),
each with its own type, selector and offset. -/
theorem claim_C6_witness :
    ([⟨0, .F32, 4, 1⟩, ⟨0, .I64, 8, 2⟩, ⟨1, .I32, 0, 5⟩] : List MapEntry).Pairwise
      (fun a b => a.column_number ≤ b.column_number) ∧
    ([⟨0, .F32, 4, 1⟩, ⟨0, .I64, 8, 2⟩, ⟨1, .I32, 0, 5⟩] : List MapEntry).filter
        (fun e => e.column_number == 0) =
      (resolvedInRequestOrder [⟨"b", .I32, 5, 0⟩, ⟨"a", .F32, 1, 4⟩, ⟨"A", .I64, 2, 8⟩]
        ["a", "b"]).filter (fun e => e.column_number == 0) :=
  ⟨(claim_C6 [⟨"b", .I32, 5, 0⟩, ⟨"a", .F32, 1, 4⟩, ⟨"A", .I64, 2, 8⟩] "#a b\n" ["a", "b"]
      ⟨[⟨0, .F32, 4, 1⟩, ⟨0, .I64, 8, 2⟩, ⟨1, .I32, 0, 5⟩],
       [⟨"a", .F32, 1, 4⟩, ⟨"A", .I64, 2, 8⟩, ⟨"b", .I32, 5, 0⟩]⟩
      (by decide) (by decide)).1,
   (claim_C6 [⟨"b", .I32, 5, 0⟩, ⟨"a", .F32, 1, 4⟩, ⟨"A", .I64, 2, 8⟩] "#a b\n" ["a", "b"]
      ⟨[⟨0, .F32, 4, 1⟩, ⟨0, .I64, 8, 2⟩, ⟨1, .I32, 0, 5⟩],
       [⟨"a", .F32, 1, 4⟩, ⟨"A", .I64, 2, 8⟩, ⟨"b", .I32, 5, 0⟩]⟩
      (by decide) (by decide)).2 0⟩

/-- A requested name is unmatched exactly when no header name compares
equal case-insensitively. -/
theorem matchLoop_eq_neg_one (w : String) :
    ∀ (names : List String) (j : Nat),
      (matchLoop w j names = -1) ↔ (names.all (fun nm => !(lcEq w nm)) = true) := by
  intro names
  induction names with
  | nil => intro j; simp [matchLoop]
  | cons nm rest ih =>
    intro j
    rw [matchLoop]
    by_cases h : lcEq w nm = true
    · simp only [h, if_true, List.all_cons, Bool.not_true, Bool.false_and]
      constructor
      · intro hj; omega
      · intro hj; simp at hj
    · simp [h, ih]

/-- Boolean form of the unmatched condition, against matchKey. -/
theorem matchKey_unmatched (names : List String) (w : String) :
    (matchKey names w == -1) = names.all (fun nm => !(lcEq w nm)) := by
  by_cases h : matchKey names w = -1
  · rw [((matchLoop_eq_neg_one w names 0).mp h : _)]
    simp [h]
  · have hl : (matchKey names w == -1) = false := by simp [h]
    have hr : names.all (fun nm => !(lcEq w nm)) = false := by
      cases hall : names.all (fun nm => !(lcEq w nm)) with
      | true => exact absurd ((matchLoop_eq_neg_one w names 0).mpr hall) h
      | false => rfl
    rw [hl, hr]

/-- A filter and its complement split a list's length. -/
theorem length_filter_not_add {α : Type} (p : α → Bool) (l : List α) :
    (l.filter p).length + (l.filter (fun a => !(p a))).length = l.length := by
  induction l with
  | nil => simp
  | cons a l ih =>
    by_cases h : p a = true <;>
      simp only [List.filter_cons, h, Bool.not_true, Bool.not_false, if_true, if_false,
        Bool.false_eq_true, List.length_cons] <;> omega

/-- Claim C8: a request list in which exactly one name is absent from the
header still resolves successfully, and the resulting mapping has exactly
one entry fewer than the number requested — the unmatched request is
simply omitted. -/
theorem claim_C8 (requests : List HRequest) (header : String) (names : List String)
    (hn : headerNamesModel header = some names)
    (hcap : requests.length ≤ 128)
    (hone : (requests.filter (fun rq => names.all (fun nm => !(lcEq rq.name nm)))).length = 1) :
    ∃ res, parse_header_ctrees requests header = some res ∧
      res.entries.length = requests.length - 1 := by
  have hres : parse_header_ctrees requests header = some
      { entries := ((specStableSort (requests.map
            (fun rq => KeyedReq.mk (matchKey names rq.name) rq))).filter
          (fun r => r.key != -1)).map toMapEntry,
        finalReqs := (specStableSort (requests.map
            (fun rq => KeyedReq.mk (matchKey names rq.name) rq))).map (fun r => r.req) } := by
    unfold parse_header_ctrees
    rw [if_neg (by omega), hn]
  refine ⟨_, hres, ?_⟩
  dsimp only
  rw [List.length_map]
  rw [((specStableSort_perm (requests.map
      (fun rq => KeyedReq.mk (matchKey names rq.name) rq))).filter
    (fun r => r.key != -1)).length_eq]
  rw [List.filter_map, List.length_map]
  have hcongr : (requests.filter (fun rq =>
      !((matchKey names rq.name != -1) : Bool))).length = 1 := by
    rw [List.filter_congr (fun rq _ => ?_)]
    · exact hone
    · show (!(matchKey names rq.name != -1)) = names.all (fun nm => !(lcEq rq.name nm))
      rw [show ((matchKey names rq.name != -1) : Bool) = !(matchKey names rq.name == -1) from rfl,
        Bool.not_not, matchKey_unmatched]
  have hsum := length_filter_not_add (fun rq => ((matchKey names rq.name != -1) : Bool)) requests
  rw [hcongr] at hsum
  have : (List.filter ((fun r : KeyedReq => r.key != -1) ∘
      (fun rq => KeyedReq.mk (matchKey names rq.name) rq)) requests).length =
      (requests.filter (fun rq => ((matchKey names rq.name != -1) : Bool))).length := rfl
  rw [this]
  omega

/-- Witness for claim C8: header "#a b c\n" with requests a, zz, c, where
zz is absent; resolution succeeds with a two-entry mapping. -/
theorem claim_C8_witness :
    ∃ res, parse_header_ctrees
        [⟨"a", .I32, 0, 0⟩, ⟨"zz", .I32, 0, 0⟩, ⟨"c", .F64, 0, 4⟩] "#a b c\n" = some res ∧
      res.entries.length =
        ([⟨"a", .I32, 0, 0⟩, ⟨"zz", .I32, 0, 0⟩, ⟨"c", .F64, 0, 4⟩] : List HRequest).length - 1 :=
  claim_C8 [⟨"a", .I32, 0, 0⟩, ⟨"zz", .I32, 0, 0⟩, ⟨"c", .F64, 0, 4⟩] "#a b c\n"
    ["a", "b", "c"] (by decide) (by decide) (by decide)

/-- An empty token fails the non-empty filter. -/
theorem bne_empty_of_beq {t : String} (h : (t == "") = true) : (t != "") = false := by
  show (!(t == "")) = false
  rw [h]
  rfl

/-- A non-empty token passes the non-empty filter. -/
theorem bne_empty_of_not_beq {t : String} (h : ¬((t == "") = true)) : (t != "") = true := by
  show (!(t == "")) = true
  cases hb : (t == "") with
  | true => exact absurd hb h
  | false => rfl

/-- popNE exhausts the raw tokens exactly when no non-empty token
remains. -/
theorem popNE_none_iff (ts : List String) :
    popNE ts = none ↔ ts.filter (fun t => t != "") = [] := by
  induction ts with
  | nil => simp [popNE]
  | cons t ts ih =>
    rw [popNE, List.filter_cons]
    by_cases h : (t == "") = true
    · rw [if_pos h, bne_empty_of_beq h, if_neg (by simp)]
      exact ih
    · rw [if_neg h, bne_empty_of_not_beq h, if_pos rfl]
      simp

/-- A successful popNE pops exactly the head of the filtered token list,
and the filtered remainder is the filtered tail. -/
theorem popNE_some_filter (ts : List String) :
    ∀ t r, popNE ts = some (t, r) →
      ts.filter (fun x => x != "") = t :: r.filter (fun x => x != "") := by
  induction ts with
  | nil => intro t r h; simp [popNE] at h
  | cons a ts ih =>
    intro t r h
    rw [popNE] at h
    by_cases ha : (a == "") = true
    · rw [if_pos ha] at h
      rw [List.filter_cons, bne_empty_of_beq ha, if_neg (by simp)]
      exact ih t r h
    · rw [if_neg ha] at h
      rw [Option.some.injEq, Prod.mk.injEq] at h
      obtain ⟨h1, h2⟩ := h
      subst h1
      subst h2
      rw [List.filter_cons, bne_empty_of_not_beq ha, if_pos rfl]

/-- The raw cursor advance and the filtered cursor advance simulate each
other: same current token, and the filtered raws coincide with the
filtered remainder. -/
theorem advance_sim (n : Nat) :
    ∀ (tok : Option String) (rest : List String),
      (advanceTok n tok rest).1 = (advanceF n tok (rest.filter (fun x => x != ""))).1 ∧
      (advanceTok n tok rest).2.filter (fun x => x != "") =
        (advanceF n tok (rest.filter (fun x => x != ""))).2 := by
  induction n with
  | zero => intro tok rest; exact ⟨rfl, rfl⟩
  | succ n ih =>
    intro tok rest
    cases hp : popNE rest with
    | none =>
      have hf : rest.filter (fun x => x != "") = [] := (popNE_none_iff rest).mp hp
      rw [hf]
      simp [advanceTok, advanceF, hp]
    | some pr =>
      obtain ⟨t, r⟩ := pr
      have hf := popNE_some_filter rest t r hp
      rw [hf]
      simpa [advanceTok, advanceF, hp] using ih (some t) r

/-- The raw-token column loop equals the filtered-token column loop. -/
theorem parseLoop_sim (es : List MapEntry) :
    ∀ (icol : Int) (tok : Option String) (rest : List String) (bp : BaseInfo),
      parseLoop es icol tok rest bp =
        parseLoopF es icol tok (rest.filter (fun x => x != "")) bp := by
  induction es with
  | nil => intro icol tok rest bp; rfl
  | cons e es ih =>
    intro icol tok rest bp
    rw [parseLoop, parseLoopF]
    dsimp only
    have hadv := advance_sim (e.column_number - icol).toNat tok rest
    rw [← hadv.1, ← hadv.2]
    split
    case isFalse => rfl
    case isTrue hidx =>
    split
    case isFalse => rfl
    case isTrue hstr =>
    split
    case isFalse => rfl
    case isTrue hoff =>
    split
    case h_1 => rfl
    case h_2 t hst =>
    split
    case isTrue => rfl
    case isFalse hne =>
    split
    case h_1 => rfl
    case h_2 v hw =>
      exact ih _ _ _ _

/-- Advancing n times over two token lists that agree on their first m
tokens (n ≤ m) yields the same current token, and remainders that agree on
their first m - n tokens. -/
theorem advanceF_prefix (n : Nat) :
    ∀ (m : Nat) (tok : Option String) (f1 f2 : List String),
      n ≤ m → f1.take m = f2.take m →
      (advanceF n tok f1).1 = (advanceF n tok f2).1 ∧
      (advanceF n tok f1).2.take (m - n) = (advanceF n tok f2).2.take (m - n) := by
  induction n with
  | zero => intro m tok f1 f2 _ h; exact ⟨rfl, by simpa using h⟩
  | succ n ih =>
    intro m tok f1 f2 hnm h
    obtain ⟨m', rfl⟩ : ∃ m', m = m' + 1 := ⟨m - 1, by omega⟩
    cases f1 with
    | nil =>
      cases f2 with
      | nil => exact ⟨rfl, rfl⟩
      | cons b f2 => simp at h
    | cons a f1 =>
      cases f2 with
      | nil => simp at h
      | cons b f2 =>
        simp only [List.take, List.cons.injEq] at h
        obtain ⟨rfl, h2⟩ := h
        have hx := ih m' (some a) f1 f2 (by omega) h2
        have hm : m' + 1 - (n + 1) = m' - n := by omega
        rw [hm]
        exact ⟨hx.1, hx.2⟩

/-- The filtered column loop depends only on the first k + 1 - (icol + 1)
remaining tokens when every entry's column number is at most k. -/
theorem parseLoopF_prefix (es : List MapEntry) (k : Nat) :
    ∀ (icol : Int) (tok : Option String) (f1 f2 : List String) (bp : BaseInfo),
      (∀ e ∈ es, e.column_number ≤ (k : Int)) →
      icol ≤ (k : Int) →
      f1.take (((k : Int) - icol).toNat) = f2.take (((k : Int) - icol).toNat) →
      parseLoopF es icol tok f1 bp = parseLoopF es icol tok f2 bp := by
  induction es with
  | nil => intro icol tok f1 f2 bp _ _ _; rfl
  | cons e es ih =>
    intro icol tok f1 f2 bp hcols hicol h
    rw [parseLoopF, parseLoopF]
    dsimp only
    have hcol := hcols e (List.mem_cons_self e es)
    have hn : (e.column_number - icol).toNat ≤ ((k : Int) - icol).toNat := by omega
    have hadv := advanceF_prefix (e.column_number - icol).toNat (((k : Int) - icol).toNat)
      tok f1 f2 hn h
    rw [hadv.1]
    split
    case isFalse => rfl
    case isTrue hidx =>
    split
    case isFalse => rfl
    case isTrue hstr =>
    split
    case isFalse => rfl
    case isTrue hoff =>
    split
    case h_1 => rfl
    case h_2 t hst =>
    split
    case isTrue => rfl
    case isFalse hne =>
    split
    case h_1 => rfl
    case h_2 v hw =>
      rw [hst]
      refine ih (icol + ((e.column_number - icol).toNat : Int)) (some t) _ _ _
        (fun x hx => hcols x (List.mem_cons_of_mem e hx)) (by omega) ?_
      have hm : ((k : Int) - (icol + ((e.column_number - icol).toNat : Int))).toNat =
          ((k : Int) - icol).toNat - (e.column_number - icol).toNat := by omega
      rw [hm]
      exact hadv.2

/-- Claim C10, amended: for a fixed ColumnMapping whose file column
indices are all at most k, the entire outcome of parse_line_ctrees
(status, destination stores, row counter) depends only on the first k + 1
space-separated tokens of the row text (split on the space character, the
only delimiter the source passes to strsep, with empty fields skipped):
two rows agreeing on those tokens produce identical results. -/
theorem claim_C10_amended (s1 s2 : String) (ci : List MapEntry) (bp : BaseInfo)
    (oracle : Nat → Bool) (k : Nat)
    (hcols : ∀ e ∈ ci, e.column_number ≤ (k : Int))
    (hpre : (spaceTokens s1).take (k + 1) = (spaceTokens s2).take (k + 1)) :
    parse_line_ctrees oracle s1 ci bp = parse_line_ctrees oracle s2 ci bp := by
  have hmain : ∀ bp2 : BaseInfo,
      parseLoop ci (-1) none (stringSplit (· == ' ') s1) bp2 =
      parseLoop ci (-1) none (stringSplit (· == ' ') s2) bp2 := by
    intro bp2
    rw [parseLoop_sim, parseLoop_sim]
    have hm : ((k : Int) - (-1)).toNat = k + 1 := by omega
    exact parseLoopF_prefix ci k (-1) none _ _ bp2 hcols (by omega) (by rw [hm]; exact hpre)
  unfold parse_line_ctrees
  dsimp only
  split
  · split
    · rfl
    · exact hmain _
  · exact hmain _

/-- Witness for the amended claim C10: rows "5 6 7" and "5 6 8" agree on
their first two space tokens; with a mapping reading only column 1 the
results coincide. -/
theorem claim_C10_witness :
    parse_line_ctrees (fun _ => true) "5 6 7" [⟨1, .I64, 0, 0⟩] ⟨1, [⟨8, 64, []⟩], 0, 8⟩ =
      parse_line_ctrees (fun _ => true) "5 6 8" [⟨1, .I64, 0, 0⟩] ⟨1, [⟨8, 64, []⟩], 0, 8⟩ :=
  claim_C10_amended "5 6 7" "5 6 8" [⟨1, .I64, 0, 0⟩] ⟨1, [⟨8, 64, []⟩], 0, 8⟩
    (fun _ => true) 1 (by decide) (by decide)

/-- rowsBytes unfolds one row at a time. -/
theorem rowsBytes_cons (r : List Char) (rs : List (List Char)) :
    rowsBytes (r :: rs) = r ++ '\n' :: rowsBytes rs := by
  simp [rowsBytes]

/-- Each row contributes at least its newline byte. -/
theorem rowsBytes_length_ge (rows : List (List Char)) :
    rows.length ≤ (rowsBytes rows).length := by
  induction rows with
  | nil => simp [rowsBytes]
  | cons r rs ih =>
    rw [rowsBytes_cons]
    simp only [List.length_append, List.length_cons]
    omega

/-- Reading a byte through a known drop decomposition. -/
theorem byteAt_of_drop (chunk0 : List Char) (consumed j : Nat) (l2 : List Char)
    (h : chunk0.drop consumed = l2) : byteAt chunk0 (consumed + j) = byteAt l2 j := by
  rw [byteAt, byteAt, List.getD_eq_getElem?_getD, List.getD_eq_getElem?_getD,
    ← List.getElem?_drop, h]

/-- Bytes inside the left part of an append. -/
theorem byteAt_append_left (l1 l2 : List Char) (j : Nat) (h : j < l1.length) :
    byteAt (l1 ++ l2) j = byteAt l1 j := by
  rw [byteAt, byteAt, List.getD_eq_getElem?_getD, List.getD_eq_getElem?_getD,
    List.getElem?_append, if_pos h]

/-- Bytes inside the right part of an append. -/
theorem byteAt_append_right (l1 l2 : List Char) (j : Nat) (h : l1.length ≤ j) :
    byteAt (l1 ++ l2) j = byteAt l2 (j - l1.length) := by
  rw [byteAt, byteAt, List.getD_eq_getElem?_getD, List.getD_eq_getElem?_getD,
    List.getElem?_append_right h]

/-- A byte read inside a list's extent is a member of it. -/
theorem byteAt_mem (l : List Char) (j : Nat) (h : j < l.length) : byteAt l j ∈ l := by
  rw [byteAt, List.getD_eq_getElem?_getD, List.getElem?_eq_getElem h]
  exact List.getElem_mem h

/-- The row scan reports the comment marker when the row's first byte is
the marker. -/
theorem scanRow_hash (buf : List Char) (s : Nat) (nbytes : Nat)
    (hn : 0 < nbytes) (h : byteAt buf s = '#') : scanRow buf s nbytes = .hash := by
  obtain ⟨m, rfl⟩ : ∃ m, nbytes = m + 1 := ⟨nbytes - 1, by omega⟩
  rw [scanRow, scanRowAux]
  have hb : byteAt buf (s + 0) = '#' := by simpa using h
  rw [hb]
  rfl

/-- The row scan finds the newline terminating a row of L marker-free,
newline-free bytes. -/
theorem scanRowAux_newline (buf : List Char) (s : Nat) (L : Nat) :
    ∀ (curr rem : Nat),
      L < rem →
      (∀ j, j < L → byteAt buf (s + curr + j) ≠ '\n' ∧ byteAt buf (s + curr + j) ≠ '#') →
      byteAt buf (s + curr + L) = '\n' →
      scanRowAux buf s curr rem = .newline (curr + L) := by
  induction L with
  | zero =>
    intro curr rem h1 _ h3
    obtain ⟨m, rfl⟩ : ∃ m, rem = m + 1 := ⟨rem - 1, by omega⟩
    rw [scanRowAux]
    have hb : byteAt buf (s + curr) = '\n' := by simpa using h3
    rw [hb]
    rfl
  | succ L ih =>
    intro curr rem h1 h2 h3
    obtain ⟨m, rfl⟩ : ∃ m, rem = m + 1 := ⟨rem - 1, by omega⟩
    have h0 := h2 0 (Nat.succ_pos L)
    have hne1 : ¬((byteAt buf (s + curr) == '\n') = true) := by
      have := h0.1
      simpa using this
    have hne2 : ¬((byteAt buf (s + curr) == '#') = true) := by
      have := h0.2
      simpa using this
    rw [scanRowAux]
    rw [if_neg hne1, if_neg hne2]
    have harr : curr + 1 + L = curr + (L + 1) := by omega
    rw [← harr]
    refine ih (curr + 1) m (by omega) ?_ ?_
    · intro j hj
      have := h2 (j + 1) (by omega)
      have hx : s + curr + (j + 1) = s + (curr + 1) + j := by omega
      rwa [hx] at this
    · have hx : s + curr + (L + 1) = s + (curr + 1) + L := by omega
      rwa [hx] at h3

/-- The chunk row loop over a block whose remaining bytes are a run of
marker-free rows followed by a marker: one parse_line_ctrees call per row,
then, on detecting the marker, the fall-through's one extra call on the
uninitialized line buffer (empty under the NUL convention), after which
the loop stops with bytes_processed equal to the rows' bytes plus one and
rows + 1 handed lines in total.  buf may differ from the pristine chunk
only below consumed (the in-buffer NUL terminations land there). -/
theorem innerLoop_rows (oracle : Nat → Bool) (ci : List MapEntry) (chunk0 : List Char)
    (hok : ∀ (s : String) (bp1 : BaseInfo), (parse_line_ctrees oracle s ci bp1).status = 0) :
    ∀ (rows2 : List (List Char)) (tail : List Char) (consumed : Nat) (buf : List Char)
      (bp1 : BaseInfo) (fuel : Nat),
      (∀ r ∈ rows2, '\n' ∉ r ∧ '#' ∉ r) →
      buf.length = chunk0.length →
      (∀ i, consumed ≤ i → byteAt buf i = byteAt chunk0 i) →
      chunk0.drop consumed = rowsBytes rows2 ++ '#' :: tail →
      rows2.length < fuel →
      ∃ bp2 h2, innerLoopAux oracle ci fuel buf chunk0.length consumed bp1 =
          .marker (consumed + (rowsBytes rows2).length + 1) bp2 h2 ∧
        h2.length = rows2.length + 1 := by
  intro rows2
  induction rows2 with
  | nil =>
    intro tail consumed buf bp1 fuel _ hblen hagree hstruct hfuel
    obtain ⟨f, rfl⟩ : ∃ f, fuel = f + 1 := ⟨fuel - 1, by omega⟩
    have hlen : chunk0.length - consumed = (rowsBytes [] ++ '#' :: tail).length := by
      rw [← hstruct, List.length_drop]
    simp only [rowsBytes, List.map_nil, List.flatten_nil, List.nil_append,
      List.length_cons] at hlen hstruct
    have hcons : consumed < chunk0.length := by omega
    have hb : byteAt buf consumed = '#' := by
      rw [hagree consumed (le_refl consumed)]
      have := byteAt_of_drop chunk0 consumed 0 ('#' :: tail) hstruct
      simpa using this
    rw [innerLoopAux, scanRow_hash buf consumed chunk0.length (by omega) hb]
    dsimp only
    rw [if_neg (by omega : ¬ chunk0.length = 0)]
    rw [if_neg (by rw [hok]; simp)]
    exact ⟨_, [cString ((buf.set 0 '\x00').take 0)], rfl, rfl⟩
  | cons r rs ih =>
    intro tail consumed buf bp1 fuel hrows hblen hagree hstruct hfuel
    obtain ⟨f, rfl⟩ : ∃ f, fuel = f + 1 := ⟨fuel - 1, by omega⟩
    rw [rowsBytes_cons] at hstruct
    have hstruct2 : chunk0.drop consumed = r ++ '\n' :: (rowsBytes rs ++ '#' :: tail) := by
      rw [hstruct]
      simp
    have hlen : chunk0.length - consumed =
        (r ++ '\n' :: (rowsBytes rs ++ '#' :: tail)).length := by
      rw [← hstruct2, List.length_drop]
    simp only [List.length_append, List.length_cons] at hlen
    have hrhead := hrows r (List.mem_cons_self r rs)
    -- the scan of this row finds the newline at relative position r.length
    have hchars : ∀ j, j < r.length →
        byteAt buf (consumed + 0 + j) ≠ '\n' ∧ byteAt buf (consumed + 0 + j) ≠ '#' := by
      intro j hj
      have hag := hagree (consumed + j) (by omega)
      have hd := byteAt_of_drop chunk0 consumed j _ hstruct2
      have hin : byteAt (r ++ '\n' :: (rowsBytes rs ++ '#' :: tail)) j = byteAt r j :=
        byteAt_append_left r _ j hj
      have hmem : byteAt r j ∈ r := byteAt_mem r j hj
      have hx : consumed + 0 + j = consumed + j := by omega
      rw [hx, hag, hd, hin]
      constructor
      · intro hc; rw [hc] at hmem; exact hrhead.1 hmem
      · intro hc; rw [hc] at hmem; exact hrhead.2 hmem
    have hnl : byteAt buf (consumed + 0 + r.length) = '\n' := by
      have hag := hagree (consumed + r.length) (by omega)
      have hd := byteAt_of_drop chunk0 consumed r.length _ hstruct2
      have hin : byteAt (r ++ '\n' :: (rowsBytes rs ++ '#' :: tail)) r.length = '\n' := by
        rw [byteAt_append_right r _ r.length (le_refl _)]
        simp [byteAt]
      have hx : consumed + 0 + r.length = consumed + r.length := by omega
      rw [hx, hag, hd, hin]
    have hscan : scanRow buf consumed chunk0.length = .newline r.length := by
      rw [scanRow]
      have hmain := scanRowAux_newline buf consumed r.length 0 chunk0.length (by omega)
        hchars hnl
      simpa using hmain
    rw [innerLoopAux, hscan]
    dsimp only
    have hstat : (parse_line_ctrees oracle
        (cString ((buf.set r.length '\x00').take r.length)) ci bp1).status = 0 := hok _ _
    rw [if_neg (by rw [hstat]; simp)]
    have hrec := ih tail (consumed + r.length + 1) (buf.set r.length '\x00')
      (parse_line_ctrees oracle (cString ((buf.set r.length '\x00').take r.length)) ci bp1).info
      f (fun x hx => hrows x (List.mem_cons_of_mem r hx))
      (by rw [List.length_set]; exact hblen)
      (fun i hi => by
        rw [byteAt, List.getD_eq_getElem?_getD, List.getElem?_set_ne (by omega : r.length ≠ i),
          ← List.getD_eq_getElem?_getD, ← byteAt]
        exact hagree i (by omega))
      (by
        have hx : consumed + r.length + 1 = consumed + (r.length + 1) := by omega
        rw [hx, ← List.drop_drop, hstruct2,
          List.drop_append_eq_append_drop, List.drop_eq_nil_of_le (by omega),
          List.nil_append]
        have hy : r.length + 1 - r.length = 1 := by omega
        rw [hy]
        rfl)
      (by simpa using hfuel)
    obtain ⟨bp2, h2, heq, hlen2⟩ := hrec
    rw [heq]
    dsimp only
    refine ⟨bp2, cString ((buf.set r.length '\x00').take r.length) :: h2, ?_,
      by simpa using hlen2⟩
    have hx : consumed + r.length + 1 + (rowsBytes rs).length + 1 =
        consumed + (rowsBytes (r :: rs)).length + 1 := by
      rw [rowsBytes_cons]
      simp only [List.length_append, List.length_cons]
      omega
    rw [hx]

/-- Claim C7, amended: on an input consisting of a marker line (at most 30
bytes to its newline), a first block of marker-free data rows, and a
second block introduced by a line whose first character is the comment
marker (all first-block bytes within one read chunk), read_single_tree_ctrees
stops scanning data rows when it reaches the marker and never hands the
marker row's text or any later data row to the line parser — but it does
not stop cleanly: the marker-branch break exits only the inner scan loop,
and the fall-through makes one extra parse_line_ctrees call on the
uninitialized line buffer.  With a mapping on which every line parse
succeeds (e.g. an empty mapping; with any mapping needing a token the
extra call fails and the whole function returns EXIT_FAILURE, see
claim_C7_counterexample), the function returns EXIT_SUCCESS after
rows + 1 parser invocations, and its internal offset variable ends one
byte past the marker line's starting byte offset (whose byte is the
marker character).  That offset is not reported to the caller either way:
the function's return value is only the status. -/
theorem claim_C7_amended (m1 : List Char) (rows : List (List Char)) (rest : List Char)
    (ci : List MapEntry) (bp : BaseInfo) (oracle : Nat → Bool)
    (hm1len : m1.length ≤ 29) (hm1nl : '\n' ∉ m1)
    (hrows : ∀ r ∈ rows, '\n' ∉ r ∧ '#' ∉ r)
    (hsize : (rowsBytes rows).length < 4095)
    (hci : ci.length ≤ 128)
    (hok : ∀ (s : String) (bp1 : BaseInfo), (parse_line_ctrees oracle s ci bp1).status = 0) :
    ∃ out, read_single_tree_ctrees 1 (m1 ++ '\n' :: (rowsBytes rows ++ '#' :: rest)) 0 ci bp
        oracle = some out ∧
      out.status = 0 ∧
      out.finalOffset = m1.length + 1 + (rowsBytes rows).length + 1 ∧
      byteAt (m1 ++ '\n' :: (rowsBytes rows ++ '#' :: rest))
        (m1.length + 1 + (rowsBytes rows).length) = '#' ∧
      out.handed.length = rows.length + 1 := by
  have hwin : (m1 ++ '\n' :: (rowsBytes rows ++ '#' :: rest)).take 30 =
      m1 ++ '\n' :: (rowsBytes rows ++ '#' :: rest).take (29 - m1.length) := by
    rw [List.take_append_eq_append_take, List.take_of_length_le (by omega)]
    have h30 : 30 - m1.length = (29 - m1.length) + 1 := by omega
    rw [h30, List.take_succ_cons]
  have hfind : ((m1 ++ '\n' :: (rowsBytes rows ++ '#' :: rest)).take 30).findIdx?
      (· == '\n') = some m1.length := by
    rw [hwin, List.findIdx?_append]
    have hnone : m1.findIdx? (· == '\n') = none := by
      rw [List.findIdx?_eq_none_iff]
      intro x hx
      have : x ≠ '\n' := fun hc => hm1nl (hc ▸ hx)
      simp [this]
    rw [hnone, List.findIdx?_cons]
    simp
  have hdrop : (m1 ++ '\n' :: (rowsBytes rows ++ '#' :: rest)).drop (m1.length + 1) =
      rowsBytes rows ++ '#' :: rest := by
    rw [List.drop_append_eq_append_drop, List.drop_eq_nil_of_le (by omega)]
    have h1 : m1.length + 1 - m1.length = 1 := by omega
    rw [h1, List.nil_append]
    rfl
  have hchunk : (rowsBytes rows ++ '#' :: rest).take 4095 =
      rowsBytes rows ++ '#' :: rest.take (4095 - (rowsBytes rows).length - 1) := by
    rw [List.take_append_eq_append_take, List.take_of_length_le (by omega)]
    have h1 : 4095 - (rowsBytes rows).length =
        (4095 - (rowsBytes rows).length - 1) + 1 := by omega
    rw [h1, List.take_succ_cons]
    simp
  have hnb : (rowsBytes rows ++ '#' :: rest.take
      (4095 - (rowsBytes rows).length - 1)).length =
      (rowsBytes rows).length + 1 + (rest.take (4095 - (rowsBytes rows).length - 1)).length := by
    simp only [List.length_append, List.length_cons]
    omega
  have hread : read_single_tree_ctrees 1 (m1 ++ '\n' :: (rowsBytes rows ++ '#' :: rest)) 0 ci bp
      oracle = chunkLoop oracle ci (m1 ++ '\n' :: (rowsBytes rows ++ '#' :: rest)) 1
        (m1.length + 1) bp [] := by
    rw [read_single_tree_ctrees, if_neg (by omega)]
    dsimp only
    rw [List.drop_zero]
    rw [if_neg (by rw [hwin]; simp)]
    rw [skipLen, hfind]
    simp
  rw [hread, chunkLoop]
  rw [hdrop, hchunk]
  rw [if_neg (by rw [hnb]; omega)]
  obtain ⟨bp2, h2, heq, hlen2⟩ := innerLoop_rows oracle ci
    (rowsBytes rows ++ '#' :: rest.take (4095 - (rowsBytes rows).length - 1)) hok rows
    (rest.take (4095 - (rowsBytes rows).length - 1)) 0
    (rowsBytes rows ++ '#' :: rest.take (4095 - (rowsBytes rows).length - 1)) bp
    ((rowsBytes rows ++ '#' :: rest.take (4095 - (rowsBytes rows).length - 1)).length + 1)
    hrows rfl (fun i _ => rfl) (by rw [List.drop_zero])
    (by rw [hnb]; have := rowsBytes_length_ge rows; omega)
  rw [heq]
  dsimp only
  rw [if_pos (by rw [hnb]; omega)]
  refine ⟨_, rfl, rfl, by dsimp only; omega, ?_, ?_⟩
  · rw [byteAt_of_drop _ (m1.length + 1) (rowsBytes rows).length _ hdrop,
      byteAt_append_right _ _ _ (le_refl _)]
    simp [byteAt]
  · simpa using hlen2

/-- With an empty column mapping and successful allocations,
parse_line_ctrees always succeeds (the column loop has nothing to do). -/
theorem parse_line_nil_status (s : String) (bp : BaseInfo) :
    (parse_line_ctrees (fun _ => true) s [] bp).status = 0 := by
  have hra : reallocate_base_ptrs (fun _ => true) bp (2 * bp.N) =
      (0, { bp with groups := bp.groups.map (resizeTo (2 * bp.N)), nallocated := 2 * bp.N }) := by
    unfold reallocate_base_ptrs
    rw [reallocGroups_all_true]
    dsimp only
    rw [if_pos rfl]
  unfold parse_line_ctrees
  dsimp only
  split
  · rw [hra]
    rw [if_neg (by norm_num)]
    rfl
  · rfl

/-- Witness for the amended claim C7 at a concrete two-block input: marker
line "#t", data rows "42" and "7", then the next block "#x", with the
empty mapping (on which every line parse succeeds): the reader stops at
the marker that starts at byte 8, having handed three lines (the two
first-block rows plus the fall-through's empty line), with its internal
offset ending at byte 9 = marker start + 1. -/
theorem claim_C7_witness :
    ∃ out, read_single_tree_ctrees 1
        ("#t".data ++ '\n' :: (rowsBytes [['4', '2'], ['7']] ++ '#' :: "x\n".data)) 0 []
        ⟨0, [], 0, 4⟩ (fun _ => true) = some out ∧
      out.status = 0 ∧
      out.finalOffset = "#t".data.length + 1 + (rowsBytes [['4', '2'], ['7']]).length + 1 ∧
      byteAt ("#t".data ++ '\n' :: (rowsBytes [['4', '2'], ['7']] ++ '#' :: "x\n".data))
        ("#t".data.length + 1 + (rowsBytes [['4', '2'], ['7']]).length) = '#' ∧
      out.handed.length = ([['4', '2'], ['7']] : List (List Char)).length + 1 :=
  claim_C7_amended "#t".data [['4', '2'], ['7']] "x\n".data [] ⟨0, [], 0, 4⟩ (fun _ => true)
    (by decide) (by decide) (by decide) (by decide) (by decide)
    (fun s bp1 => parse_line_nil_status s bp1)
